import Mathlib

/-!
Verification of the email2dm SMTP-to-chat bridge core.

Go strings are byte strings; we model them as `List Char` with each element
standing for one byte (all concrete inputs of interest are ASCII, where the
two coincide).  Functions from the Go standard library that the code calls
(`net.SplitHostPort`, `net.ParseIP`, `net.IPNet.Contains`, `mail.ParseAddress`,
`mail.ParseDate` and the time formatter) are not repository code and are taken
as parameters of the embedding; everything else is translated line by line
from the source.
-/

namespace Email2dm

/-- Split a Go string on a single separator character, as
`strings.Split(s, sep)` does for a one-byte separator: every occurrence
separates, empty parts are kept, and the empty string yields `[""]`. -/
def splitOnChar (sep : Char) : List Char → List (List Char)
  | [] => [[]]
  | c :: rest =>
    if c = sep then [] :: splitOnChar sep rest
    else
      match splitOnChar sep rest with
      | [] => [[c]]
      | l :: ls => (c :: l) :: ls

/-- `strings.Split(text, "\n")`. -/
def splitLines (text : List Char) : List (List Char) :=
  splitOnChar '\n' text

/-- ASCII white-space bytes trimmed by `strings.TrimSpace` (the Unicode cases
do not arise for byte-level ASCII input). -/
def isSpaceChar (c : Char) : Bool :=
  c = ' ' || c = '\t' || c = '\n' || c = '\x0B' || c = '\x0C' || c = '\r'

/-- `strings.TrimSpace`. -/
def trimSpace (s : List Char) : List Char :=
  (((s.dropWhile isSpaceChar).reverse).dropWhile isSpaceChar).reverse

/-! ## Network Admission Filter (`SMTPBackend.isIPAllowed`, part_003) -/

/-- The host part of a peer address: `net.SplitHostPort` when it succeeds,
otherwise the address as-is (the code's fallback for a missing port). -/
def hostOf (splitHostPort : List Char → Option (List Char × List Char))
    (remoteAddr : List Char) : List Char :=
  match splitHostPort remoteAddr with
  | some hp => hp.1
  | none => remoteAddr

/-- `SMTPBackend.isIPAllowed` from the SMTP server file: empty rule set allows
everything; otherwise the host must parse as an IP and be contained in at
least one configured network, and an unparseable host is rejected. -/
def isIPAllowed {IP Net : Type} (splitHostPort : List Char → Option (List Char × List Char))
    (parseIP : List Char → Option IP) (contains : Net → IP → Bool)
    (allowedNetworks : List Net) (remoteAddr : List Char) : Bool :=
  if allowedNetworks.isEmpty then true
  else
    match parseIP (hostOf splitHostPort remoteAddr) with
    | none => false
    | some ip => allowedNetworks.any fun network => contains network ip

/-! ## Address Resolver (`EmailProcessor.extractPlatformAndID` and the
platform validators, processor source embedded after the README) -/

/-- `strconv.ParseInt(s, 10, 64)` restricted to the digit grammar of base 10:
optional sign, then decimal digits, with the signed 64-bit range check.
`none` models every error return. -/
def parseDigits (s : List Char) : Option Nat :=
  if s ≠ [] ∧ s.all Char.isDigit = true then
    some (s.foldl (fun acc c => acc * 10 + (c.toNat - '0'.toNat)) 0)
  else none

/-- See `parseDigits`; this adds the sign handling and range checks of
`strconv.ParseInt(s, 10, 64)`. -/
def parseInt64 (s : List Char) : Option Int :=
  match s with
  | [] => none
  | c :: rest =>
    let digits := if c = '-' ∨ c = '+' then rest else s
    match parseDigits digits with
    | none => none
    | some n =>
      if c = '-' then
        if n ≤ 2 ^ 63 then some (-(n : Int)) else none
      else if n ≤ 2 ^ 63 - 1 then some (n : Int) else none

/-- `EmailProcessor.validateTelegramID`: `g`-prefixed group ids must have a
numeric remainder; everything else must parse as a nonzero 64-bit integer.
`true` models the nil-error return. -/
def validateTelegramID (id : List Char) : Bool :=
  if "g".data.isPrefixOf id ∧ 1 < id.length then
    (parseInt64 id.tail).isSome
  else
    match parseInt64 id with
    | none => false
    | some chatID => if chatID = 0 then false else true

/-- `EmailProcessor.validateSlackID`: user-id shape, channel-id shape, channel
name, or a bare username without `#` and `@`. -/
def validateSlackID (id : List Char) : Bool :=
  if "U".data.isPrefixOf id ∧ 9 ≤ id.length then true
  else if "C".data.isPrefixOf id ∧ 9 ≤ id.length then true
  else if "#".data.isPrefixOf id ∧ 1 < id.length then true
  else if 0 < id.length ∧ id.contains '#' = false ∧ id.contains '@' = false then true
  else false

/-- `EmailProcessor.validateIDForPlatform`. -/
def validateIDForPlatform (id platform : List Char) : Bool :=
  if id = [] then false
  else if platform = "telegram".data then validateTelegramID id
  else if platform = "slack".data then validateSlackID id
  else false

/-- The error returns of `EmailProcessor.extractPlatformAndID`. -/
inductive ResolveError
  | noRecipient
  | malformedAddress (addr : List Char)
  | unsupportedPlatform (domain : List Char)
  | invalidIdentifier (platform id : List Char)
  deriving DecidableEq

/-- `strings.ToLower` on ASCII bytes. -/
def toLowerList (s : List Char) : List Char :=
  s.map Char.toLower

/-- `EmailProcessor.extractPlatformAndID`: first recipient only, parsed by
`mail.ParseAddress` (a parameter returning the parsed `Address` field), split
on `@` into exactly two parts, the lowercased domain looked up in the fixed
platform table, then the local part validated for that platform. -/
def extractPlatformAndID (parseAddress : List Char → Option (List Char))
    (toAddresses : List (List Char)) : Except ResolveError (List Char × List Char) :=
  match toAddresses with
  | [] => .error .noRecipient
  | firstAddress :: _ =>
    match parseAddress firstAddress with
    | none => .error (.malformedAddress firstAddress)
    | some address =>
      match splitOnChar '@' address with
      | [localPart, domainRaw] =>
        let domainPart := toLowerList domainRaw
        let platform? : Option (List Char) :=
          if domainPart = "telegram".data then some "telegram".data
          else if domainPart = "slack".data then some "slack".data
          else none
        match platform? with
        | none => .error (.unsupportedPlatform domainPart)
        | some platform =>
          if validateIDForPlatform localPart platform then .ok (platform, localPart)
          else .error (.invalidIdentifier platform localPart)
      | _ => .error (.malformedAddress address)

/-! ## Dispatch-time identifier finalization (`EmailProcessor.sendToPlatform`) -/

/-- The Telegram branch of `sendToPlatform`: group notation `g...` is
rewritten to the native negative-id form just before sending. -/
def finalizeTelegramID (userID : List Char) : List Char :=
  if "g".data.isPrefixOf userID ∧ 1 < userID.length then '-' :: userID.tail
  else userID

/-- The Slack branch of `sendToPlatform`: identifiers not starting with `U`,
`C` or `#` are treated as usernames and resolved remotely; all others are
sent unchanged.  The Bool records whether resolution was attempted, `none`
models the error return of a failed resolution. -/
def finalizeSlackID (resolve : List Char → Option (List Char))
    (userID : List Char) : Option (List Char × Bool) :=
  if "U".data.isPrefixOf userID = false ∧ "C".data.isPrefixOf userID = false ∧
      "#".data.isPrefixOf userID = false then
    match resolve userID with
    | none => none
    | some resolvedID => some (resolvedID, true)
  else some (userID, false)

/-! ## Content Normalizer date handling (`EmailProcessor.formatDate`) -/

/-- `EmailProcessor.formatDate`: empty date strings become `"Unknown"`,
unparseable ones are returned as-is, parseable ones go through the fixed UTC
formatter.  `mail.ParseDate` and the formatter are parameters. -/
def formatDate {Time : Type} (parseDate : List Char → Option Time)
    (formatUTC : Time → List Char) (dateStr : List Char) : List Char :=
  if dateStr.isEmpty then "Unknown".data
  else
    match parseDate dateStr with
    | none => dateStr
    | some t => formatUTC t

/-! ## Slack Identifier Cache (`SlackClient.ResolveUserID`) -/

/-- Modelled from the spec: the implementation of `SlackClient.ResolveUserID`
and its Identifier Cache is not among the provided source files (only its
caller in `sendToPlatform` is).  Per spec section 4.5 it checks the cache, on
a miss performs a remote directory lookup, populates the cache with the
result, and fails when the platform reports no match.  The returned Bool
records whether a remote lookup was performed. -/
def resolveUserID (remoteLookup : List Char → Option (List Char))
    (cache : List (List Char × List Char)) (username : List Char) :
    Option (List Char) × List (List Char × List Char) × Bool :=
  match cache.lookup username with
  | some id => (some id, cache, false)
  | none =>
    match remoteLookup username with
    | some id => (some id, (username, id) :: cache, true)
    | none => (none, cache, true)

/-! ## Chunked delivery (`TelegramClient.splitMessage`, `wrapLongLine`,
`SendLongMessageToChat`; the Slack client has the same structure with its own
constants) -/

/-- The descending space search of `wrapLongLine`: Go scans
`i := maxLength-1` down while `i >= maxLength-50 && i >= 0` and stops at the
first space.  `lo` is the lower bound `maxLength-50` (clamped at zero). -/
def findSpaceDown (line : List Char) (lo : Nat) : Nat → Option Nat
  | 0 => if 0 < lo then none else if line.get? 0 = some ' ' then some 0 else none
  | i + 1 =>
    if i + 1 < lo then none
    else if line.get? (i + 1) = some ' ' then some (i + 1)
    else findSpaceDown line lo i

/-- The break point chosen by one iteration of `wrapLongLine`: a space within
the last 50 positions below `m` if there is one, otherwise `m` itself. -/
def findBreak (m : Nat) (line : List Char) : Nat :=
  if m = 0 then 0
  else
    match findSpaceDown line (m - 50) (m - 1) with
    | some i => i
    | none => m

/-- The `if len(line) > 0 && line[0] == ' ' { line = line[1:] }` step of
`wrapLongLine`. -/
def dropLeadingSpace : List Char → List Char
  | [] => []
  | c :: r => if c = ' ' then r else c :: r

/-- The `for len(line) > maxLength` loop of `wrapLongLine`, with explicit
fuel; each iteration emits `line[:breakPoint]` and continues with the rest,
minus one leading space.  For `m ≥ 1` every iteration shortens the line, so
fuel `line.length` is never exhausted. -/
def wrapGo (m : Nat) : Nat → List Char → List (List Char)
  | 0, line => if line.isEmpty then [] else [line]
  | fuel + 1, line =>
    if m < line.length then
      line.take (findBreak m line) ::
        wrapGo m fuel (dropLeadingSpace (line.drop (findBreak m line)))
    else if line.isEmpty then [] else [line]

/-- `TelegramClient.wrapLongLine` (identical in the Slack client). -/
def wrapLongLine (line : List Char) (maxLength : Nat) : List (List Char) :=
  wrapGo maxLength line.length line

/-- The mutable state of `splitMessage`: the chunks emitted so far and the
`strings.Builder` holding the current chunk. -/
structure SplitState where
  chunks : List (List Char)
  cur : List Char
  deriving DecidableEq

/-- The `if currentChunk.Len() > 0` flush idiom of `splitMessage`. -/
def flushChunk (st : SplitState) : SplitState :=
  if st.cur.isEmpty then st
  else ⟨st.chunks ++ [trimSpace st.cur], []⟩

/-- The inner `for j, wrappedLine := range wrappedLines` body of
`splitMessage`. -/
def wrapStep (st : SplitState) (j : Nat) (w : List Char) : SplitState :=
  if j = 0 ∧ st.cur.length = 0 then ⟨st.chunks, st.cur ++ w⟩
  else
    let st1 := flushChunk st
    ⟨st1.chunks, st1.cur ++ w⟩

/-- Folds `wrapStep` over the wrapped lines, tracking the index `j`. -/
def wrapFoldAux (j : Nat) (st : SplitState) : List (List Char) → SplitState
  | [] => st
  | w :: ws => wrapFoldAux (j + 1) (wrapStep st j w) ws

/-- The body of the `for _, line := range lines` loop of `splitMessage`. -/
def splitStep (maxLen : Nat) (st : SplitState) (line : List Char) : SplitState :=
  if maxLen < st.cur.length + line.length + 1 then
    let st1 := flushChunk st
    if maxLen - 100 < line.length then
      wrapFoldAux 0 st1 (wrapLongLine line (maxLen - 100))
    else ⟨st1.chunks, st1.cur ++ line⟩
  else if 0 < st.cur.length then ⟨st.chunks, st.cur ++ '\n' :: line⟩
  else ⟨st.chunks, st.cur ++ line⟩

/-- `TelegramClient.splitMessage` (`maxLen` is `MaxMessageLength`, 4096; the
Slack client is identical with 40000). -/
def splitMessage (maxLen : Nat) (text : List Char) : List (List Char) :=
  (flushChunk ((splitLines text).foldl (splitStep maxLen) ⟨[], []⟩)).chunks

/-- The `[Part N]` continuation marker of `SendLongMessageToChat`:
`fmt.Sprintf("[Part %d]\n%s", i+1, chunk)`. -/
def partMarker (n : Nat) : List Char :=
  "[Part ".data ++ (toString n).data ++ "]\n".data

/-- The texts actually sent by `SendLongMessageToChat`: the text itself if it
fits, otherwise the split chunks with the marker prepended to every chunk
after the first. -/
def sendLongChunks (maxLen : Nat) (text : List Char) : List (List Char) :=
  if text.length ≤ maxLen then [text]
  else
    (splitMessage maxLen text).enum.map fun p =>
      if p.1 = 0 then p.2 else partMarker (p.1 + 1) ++ p.2

/-- Removing an injected part marker: the spec's "after stripping injected
part markers".  A marker is `"[Part N]\n"`, so stripping drops through the
first newline of a chunk beginning with `"[Part "`. -/
def stripMarker (c : List Char) : List Char :=
  if "[Part ".data.isPrefixOf c then (c.dropWhile fun x => !(x = '\n')).drop 1
  else c

/-- The sending loop of `SendLongMessageToChat` / `SendLongMessageToChannel`,
abstracted over which sends fail: `fails i` says the HTTP send of the chunk
at index `i` returns an error.  The result is the list of indices whose send
was attempted, in the order attempted, and the index of the failure that
aborted the loop, if any. -/
def sendLoop (fails : Nat → Bool) : Nat → List (List Char) → List Nat × Option Nat
  | _, [] => ([], none)
  | i, _ :: cs =>
    if fails i then ([i], some i)
    else
      let r := sendLoop fails (i + 1) cs
      (i :: r.1, r.2)

/-- A line that the splitter passes through unchanged: non-empty, short
enough never to be wrapped (at the Telegram limit), and with no white space
at either end, so chunk trimming cannot touch it. -/
def goodLine (l : List Char) : Bool :=
  match l.head?, l.getLast? with
  | some c, some d => decide (l.length ≤ 3996) && !isSpaceChar c && !isSpaceChar d
  | _, _ => false

/-- Concrete over-length text witnessing that a sent chunk can exceed the
platform limit once the part marker is added. -/
def c5Text : List Char :=
  List.replicate 4096 'a' ++ '\n' :: List.replicate 3995 'b'

/-- Concrete over-length text whose second line gets wrapped mid-line, so the
chunk sequence does not reproduce the original line sequence. -/
def c6Text : List Char :=
  List.replicate 4000 'a' ++ '\n' :: List.replicate 4000 'b'

/-- Concrete text with two clean lines, jointly over the limit, used to
instantiate the round-trip theorem. -/
def c6GoodText : List Char :=
  List.replicate 3000 'a' ++ '\n' :: List.replicate 3000 'b'

/-- The line sequence still pending in the splitter's current chunk. -/
def curLines (st : SplitState) : List (List Char) :=
  if st.cur.isEmpty then [] else splitLines st.cur

/-- The line sequence already committed by the splitter: the lines of every
emitted chunk followed by the pending lines. -/
def chunkLines (st : SplitState) : List (List Char) :=
  st.chunks.flatMap splitLines ++ curLines st

/-! ## Theorems -/

/-! ### Helper lemmas about the splitter primitives -/

theorem splitOnChar_ne_nil (sep : Char) (l : List Char) : splitOnChar sep l ≠ [] := by
  cases l with
  | nil => simp [splitOnChar]
  | cons c rest =>
    unfold splitOnChar
    split
    · simp
    · cases h : splitOnChar sep rest <;> simp

theorem splitOnChar_cons_eq (sep : Char) (rest : List Char) :
    splitOnChar sep (sep :: rest) = [] :: splitOnChar sep rest := by
  simp [splitOnChar]

theorem splitOnChar_cons_ne (sep c : Char) (rest : List Char) (hc : ¬c = sep)
    (l : List Char) (ls : List (List Char)) (h : splitOnChar sep rest = l :: ls) :
    splitOnChar sep (c :: rest) = (c :: l) :: ls := by
  unfold splitOnChar
  rw [if_neg hc, h]

theorem splitOnChar_append (sep : Char) (a b : List Char) :
    splitOnChar sep (a ++ sep :: b) = splitOnChar sep a ++ splitOnChar sep b := by
  induction a with
  | nil =>
    rw [List.nil_append, splitOnChar_cons_eq]
    rfl
  | cons c a ih =>
    by_cases hc : c = sep
    · subst hc
      rw [List.cons_append, splitOnChar_cons_eq, ih, splitOnChar_cons_eq,
        List.cons_append]
    · obtain ⟨l, ls, hls⟩ := List.exists_cons_of_ne_nil (splitOnChar_ne_nil sep a)
      have hab : splitOnChar sep (a ++ sep :: b) = l :: (ls ++ splitOnChar sep b) := by
        rw [ih, hls, List.cons_append]
      rw [List.cons_append, splitOnChar_cons_ne sep c _ hc _ _ hab,
        splitOnChar_cons_ne sep c _ hc _ _ hls, List.cons_append]

theorem splitOnChar_no_sep (sep : Char) (l : List Char) (h : sep ∉ l) :
    splitOnChar sep l = [l] := by
  induction l with
  | nil => rfl
  | cons c rest ih =>
    have hc : ¬c = sep := by
      rintro rfl
      exact h (List.mem_cons_self _ _)
    have hr : sep ∉ rest := fun hm => h (List.mem_cons_of_mem _ hm)
    simp [splitOnChar, hc, ih hr]

theorem mem_splitOnChar_not_sep (sep : Char) :
    ∀ (l : List Char) (p : List Char), p ∈ splitOnChar sep l → sep ∉ p := by
  intro l
  induction l with
  | nil =>
    intro p hp
    simp [splitOnChar] at hp
    simp [hp]
  | cons c rest ih =>
    intro p hp
    unfold splitOnChar at hp
    split at hp
    · rcases List.mem_cons.mp hp with rfl | hp
      · simp
      · exact ih p hp
    · rename_i hc
      cases hsp : splitOnChar sep rest with
      | nil => exact absurd hsp (splitOnChar_ne_nil sep rest)
      | cons l0 ls =>
        rw [hsp] at hp
        rcases List.mem_cons.mp hp with rfl | hp
        · intro hs
          rcases List.mem_cons.mp hs with rfl | hs
          · exact hc rfl
          · exact ih l0 (by rw [hsp]; exact List.mem_cons_self _ _) hs
        · exact ih p (by rw [hsp]; exact List.mem_cons_of_mem _ hp)

theorem trimSpace_length_le (s : List Char) : (trimSpace s).length ≤ s.length := by
  unfold trimSpace
  rw [List.length_reverse]
  refine le_trans ((List.dropWhile_sublist _).length_le) ?_
  rw [List.length_reverse]
  exact (List.dropWhile_sublist _).length_le

theorem trimSpace_eq_self (l : List Char)
    (h1 : ∀ c, l.head? = some c → isSpaceChar c = false)
    (h2 : ∀ c, l.getLast? = some c → isSpaceChar c = false) :
    trimSpace l = l := by
  have hd : ∀ (t : List Char), (∀ c, t.head? = some c → isSpaceChar c = false) →
      t.dropWhile isSpaceChar = t := by
    intro t h
    cases t with
    | nil => rfl
    | cons a t =>
      rw [List.dropWhile_cons, if_neg]
      simp [h a rfl]
  unfold trimSpace
  rw [hd _ h1, hd l.reverse fun c hc => h2 c (by rwa [List.head?_reverse] at hc),
    List.reverse_reverse]

theorem head?_replicate_succ (n : Nat) (c : Char) :
    (List.replicate (n + 1) c).head? = some c := by
  rw [List.replicate_succ]
  rfl

theorem getLast?_replicate_succ (n : Nat) (c : Char) :
    (List.replicate (n + 1) c).getLast? = some c := by
  rw [List.replicate_succ', List.getLast?_concat]

theorem trimSpace_replicate (n : Nat) (c : Char) (hc : isSpaceChar c = false) :
    trimSpace (List.replicate n c) = List.replicate n c := by
  cases n with
  | zero => rfl
  | succ n =>
    refine trimSpace_eq_self _ (fun d hd => ?_) (fun d hd => ?_)
    · rw [head?_replicate_succ] at hd
      cases hd
      exact hc
    · rw [getLast?_replicate_succ] at hd
      cases hd
      exact hc

theorem findSpaceDown_le (line : List Char) (lo : Nat) :
    ∀ i j, findSpaceDown line lo i = some j → j ≤ i := by
  intro i
  induction i with
  | zero =>
    intro j h
    unfold findSpaceDown at h
    split at h
    · exact absurd h (by simp)
    · split at h
      · cases h
        exact le_refl 0
      · exact absurd h (by simp)
  | succ i ih =>
    intro j h
    unfold findSpaceDown at h
    split at h
    · exact absurd h (by simp)
    · split at h
      · cases h
        exact le_refl _
      · exact le_trans (ih j h) (Nat.le_succ i)

theorem findSpaceDown_space (line : List Char) (lo : Nat) :
    ∀ i j, findSpaceDown line lo i = some j → line.get? j = some ' ' := by
  intro i
  induction i with
  | zero =>
    intro j h
    unfold findSpaceDown at h
    split at h
    · exact absurd h (by simp)
    · split at h
      · rename_i hsp
        cases h
        exact hsp
      · exact absurd h (by simp)
  | succ i ih =>
    intro j h
    unfold findSpaceDown at h
    split at h
    · exact absurd h (by simp)
    · split at h
      · rename_i hsp
        cases h
        exact hsp
      · exact ih j h

theorem findBreak_le (m : Nat) (line : List Char) : findBreak m line ≤ m := by
  unfold findBreak
  split
  · omega
  · rename_i hm
    cases hf : findSpaceDown line (m - 50) (m - 1) with
    | none => exact le_refl m
    | some i =>
      show i ≤ m
      have := findSpaceDown_le line (m - 50) (m - 1) i hf
      omega

theorem findBreak_eq_zero (m : Nat) (line : List Char) (hm : m ≠ 0)
    (h : findBreak m line = 0) : line.get? 0 = some ' ' := by
  unfold findBreak at h
  rw [if_neg hm] at h
  cases hf : findSpaceDown line (m - 50) (m - 1) with
  | none =>
    rw [hf] at h
    exact absurd h hm
  | some i =>
    rw [hf] at h
    subst h
    exact findSpaceDown_space line (m - 50) (m - 1) 0 hf

theorem dropLeadingSpace_length_le (l : List Char) :
    (dropLeadingSpace l).length ≤ l.length := by
  cases l with
  | nil => exact le_refl _
  | cons c r =>
    show (if c = ' ' then r else c :: r).length ≤ (c :: r).length
    split <;> simp

theorem wrapGo_small (m fuel : Nat) (line : List Char) (hle : line.length ≤ m)
    (hne : line ≠ []) : wrapGo m fuel line = [line] := by
  cases fuel with
  | zero => simp [wrapGo, hne]
  | succ f =>
    unfold wrapGo
    rw [if_neg (by omega)]
    simp [hne]

theorem wrapGo_step (m fuel : Nat) (line : List Char) (h : m < line.length) :
    wrapGo m (fuel + 1) line =
      line.take (findBreak m line) ::
        wrapGo m fuel (dropLeadingSpace (line.drop (findBreak m line))) := by
  rw [wrapGo, if_pos h]

theorem wrapGo_length_le (m : Nat) (hm : 0 < m) :
    ∀ fuel line, line.length ≤ fuel → ∀ w ∈ wrapGo m fuel line, w.length ≤ m := by
  intro fuel
  induction fuel with
  | zero =>
    intro line hlen w hw
    rw [List.length_eq_zero.mp (Nat.le_zero.mp hlen)] at hw
    simp [wrapGo] at hw
  | succ fuel ih =>
    intro line hlen w hw
    by_cases hlt : m < line.length
    · rw [wrapGo_step m fuel line hlt] at hw
      rcases List.mem_cons.mp hw with rfl | hw
      · calc (line.take (findBreak m line)).length ≤ findBreak m line := by
              simp [List.length_take]
          _ ≤ m := findBreak_le m line
      · refine ih _ ?_ w hw
        by_cases hbp : findBreak m line = 0
        · have hsp := findBreak_eq_zero m line (by omega) hbp
          cases line with
          | nil => simp at hsp
          | cons c t =>
            have hc : c = ' ' := by simpa using hsp
            subst hc
            rw [hbp]
            simp only [List.drop_zero, dropLeadingSpace, if_pos rfl]
            simpa using Nat.le_of_succ_le_succ (by simpa using hlen)
        · have h1 : (line.drop (findBreak m line)).length ≤ line.length - 1 := by
            rw [List.length_drop]
            omega
          have := dropLeadingSpace_length_le (line.drop (findBreak m line))
          omega
    · unfold wrapGo at hw
      rw [if_neg hlt] at hw
      split at hw
      · simp at hw
      · rcases List.mem_cons.mp hw with rfl | hw
        · omega
        · simp at hw

theorem wrapLongLine_length_le (line : List Char) (m : Nat) (hm : 0 < m) :
    ∀ w ∈ wrapLongLine line m, w.length ≤ m :=
  wrapGo_length_le m hm line.length line (le_refl _)

/-! ### Splitter state invariants -/

theorem wrapStep_cur (st : SplitState) (j : Nat) (w : List Char) :
    (wrapStep st j w).cur = w := by
  unfold wrapStep
  split
  · rename_i h
    rw [List.length_eq_zero.mp h.2]
    rfl
  · unfold flushChunk
    split
    · rename_i he
      have : st.cur = [] := by
        cases hc : st.cur with
        | nil => rfl
        | cons a l => rw [hc] at he; simp at he
      simp [this]
    · simp

theorem wrapStep_chunks (st : SplitState) (j : Nat) (w : List Char) :
    ∀ c ∈ (wrapStep st j w).chunks, c ∈ st.chunks ∨ c = trimSpace st.cur := by
  intro c hc
  unfold wrapStep at hc
  split at hc
  · exact Or.inl hc
  · unfold flushChunk at hc
    split at hc
    · exact Or.inl hc
    · rcases List.mem_append.mp hc with h | h
      · exact Or.inl h
      · exact Or.inr (by simpa using h)

theorem wrapFoldAux_chunks_le (B : Nat) :
    ∀ (ws : List (List Char)) (j : Nat) (st : SplitState),
      (∀ w ∈ ws, w.length ≤ B) →
      (∀ c ∈ st.chunks, c.length ≤ B) → st.cur.length ≤ B →
      (∀ c ∈ (wrapFoldAux j st ws).chunks, c.length ≤ B) ∧
        (wrapFoldAux j st ws).cur.length ≤ B := by
  intro ws
  induction ws with
  | nil => exact fun j st _ hch hcur => ⟨hch, hcur⟩
  | cons w ws ih =>
    intro j st hws hch hcur
    refine ih (j + 1) (wrapStep st j w) (fun w' hw' => hws w' (List.mem_cons_of_mem _ hw')) ?_ ?_
    · intro c hc
      rcases wrapStep_chunks st j w c hc with h | rfl
      · exact hch c h
      · exact le_trans (trimSpace_length_le _) hcur
    · rw [wrapStep_cur]
      exact hws w (List.mem_cons_self _ _)

theorem flushChunk_cur (st : SplitState) : (flushChunk st).cur = [] := by
  unfold flushChunk
  split
  · rename_i he
    cases hc : st.cur with
    | nil => rfl
    | cons a l => rw [hc] at he; simp at he
  · rfl

theorem flushChunk_chunks (st : SplitState) :
    ∀ c ∈ (flushChunk st).chunks, c ∈ st.chunks ∨ c = trimSpace st.cur := by
  intro c hc
  unfold flushChunk at hc
  split at hc
  · exact Or.inl hc
  · rcases List.mem_append.mp hc with h | h
    · exact Or.inl h
    · exact Or.inr (by simpa using h)

theorem splitStep_le (st : SplitState) (line : List Char)
    (hch : ∀ c ∈ st.chunks, c.length ≤ 4096) (hcur : st.cur.length ≤ 4096) :
    (∀ c ∈ (splitStep 4096 st line).chunks, c.length ≤ 4096) ∧
      (splitStep 4096 st line).cur.length ≤ 4096 := by
  have hfl_ch : ∀ c ∈ (flushChunk st).chunks, c.length ≤ 4096 := by
    intro c hc
    rcases flushChunk_chunks st c hc with h | rfl
    · exact hch c h
    · exact le_trans (trimSpace_length_le _) hcur
  unfold splitStep
  split
  · rename_i hover
    split
    · rename_i hwrap
      refine wrapFoldAux_chunks_le 4096 _ 0 _ ?_ hfl_ch (by rw [flushChunk_cur]; simp)
      intro w hw
      have h1 : (0 : Nat) < 4096 - 100 := by omega
      exact le_trans (wrapLongLine_length_le line (4096 - 100) h1 w hw) (by omega)
    · rename_i hsmall
      refine ⟨hfl_ch, ?_⟩
      show ((flushChunk st).cur ++ line).length ≤ 4096
      rw [flushChunk_cur, List.nil_append]
      omega
  · rename_i hfits
    split
    · refine ⟨hch, ?_⟩
      rw [List.length_append, List.length_cons]
      omega
    · refine ⟨hch, ?_⟩
      rw [List.length_append]
      omega

theorem splitFold_le :
    ∀ (ls : List (List Char)) (st : SplitState),
      (∀ c ∈ st.chunks, c.length ≤ 4096) → st.cur.length ≤ 4096 →
      (∀ c ∈ (ls.foldl (splitStep 4096) st).chunks, c.length ≤ 4096) ∧
        (ls.foldl (splitStep 4096) st).cur.length ≤ 4096 := by
  intro ls
  induction ls with
  | nil => exact fun st hch hcur => ⟨hch, hcur⟩
  | cons l ls ih =>
    intro st hch hcur
    obtain ⟨h1, h2⟩ := splitStep_le st l hch hcur
    exact ih _ h1 h2

/-! ### Evaluating the splitter on the concrete replicate-based texts -/

theorem get?_replicate_ne_space (n i : Nat) (c : Char) (hc : c ≠ ' ') :
    (List.replicate n c).get? i ≠ some ' ' := by
  intro h
  rw [List.get?_eq_getElem?] at h
  exact hc (List.eq_of_mem_replicate (List.getElem?_mem h)).symm

theorem findSpaceDown_no_space (line : List Char) (lo : Nat)
    (hline : ∀ i, line.get? i ≠ some ' ') : ∀ i, findSpaceDown line lo i = none := by
  intro i
  induction i with
  | zero =>
    unfold findSpaceDown
    split
    · rfl
    · rw [if_neg (hline 0)]
  | succ i ih =>
    unfold findSpaceDown
    split
    · rfl
    · rw [if_neg (hline (i + 1)), ih]

theorem findBreak_no_space (m : Nat) (line : List Char) (hm : m ≠ 0)
    (hline : ∀ i, line.get? i ≠ some ' ') : findBreak m line = m := by
  unfold findBreak
  rw [if_neg hm, findSpaceDown_no_space line _ hline]

theorem wrapLongLine_replicate (c : Char) (hc : c ≠ ' ') (n m : Nat)
    (hm : m ≠ 0) (hlt : m < n) (hle : n - m ≤ m) :
    wrapLongLine (List.replicate n c) m
      = [List.replicate m c, List.replicate (n - m) c] := by
  unfold wrapLongLine
  rw [List.length_replicate]
  obtain ⟨f, rfl⟩ : ∃ f, n = f + 1 := ⟨n - 1, by omega⟩
  rw [wrapGo_step m f _ (by rw [List.length_replicate]; omega),
    findBreak_no_space m _ hm (fun i => get?_replicate_ne_space _ _ _ hc),
    List.take_replicate, List.drop_replicate]
  have hmin : min m (f + 1) = m := by omega
  rw [hmin]
  obtain ⟨g, hg⟩ : ∃ g, f + 1 - m = g + 1 := ⟨f - m, by omega⟩
  rw [hg, List.replicate_succ]
  show List.replicate m c :: wrapGo m f (if c = ' ' then List.replicate g c
    else c :: List.replicate g c) = _
  rw [if_neg hc, ← List.replicate_succ, ← hg,
    wrapGo_small m f _ (by rw [List.length_replicate]; omega)
      (by rw [hg]; simp [List.replicate_succ])]

theorem flushChunk_nil (ch : List (List Char)) : flushChunk ⟨ch, []⟩ = ⟨ch, []⟩ := rfl

theorem flushChunk_of_ne_nil (ch : List (List Char)) (cur : List Char) (h : cur ≠ []) :
    flushChunk ⟨ch, cur⟩ = ⟨ch ++ [trimSpace cur], []⟩ := by
  have he : cur.isEmpty = false := by
    cases cur with
    | nil => exact absurd rfl h
    | cons a l => rfl
  unfold flushChunk
  rw [show (⟨ch, cur⟩ : SplitState).cur.isEmpty = false from he, if_neg Bool.false_ne_true]

theorem splitStep_fits_pos (maxLen : Nat) (ch : List (List Char)) (cur line : List Char)
    (h1 : ¬(maxLen < cur.length + line.length + 1)) (h2 : 0 < cur.length) :
    splitStep maxLen ⟨ch, cur⟩ line = ⟨ch, cur ++ '\n' :: line⟩ := by
  unfold splitStep
  rw [if_neg h1, if_pos h2]

theorem splitStep_fits_nil (maxLen : Nat) (ch : List (List Char)) (line : List Char)
    (h1 : ¬(maxLen < ([] : List Char).length + line.length + 1)) :
    splitStep maxLen ⟨ch, []⟩ line = ⟨ch, line⟩ := by
  unfold splitStep
  rw [if_neg h1, if_neg (by simp)]
  rfl

theorem splitStep_over_wrap (maxLen : Nat) (ch : List (List Char)) (cur line : List Char)
    (h1 : maxLen < cur.length + line.length + 1) (h2 : maxLen - 100 < line.length) :
    splitStep maxLen ⟨ch, cur⟩ line
      = wrapFoldAux 0 (flushChunk ⟨ch, cur⟩) (wrapLongLine line (maxLen - 100)) := by
  unfold splitStep
  rw [if_pos h1, if_pos h2]

theorem splitStep_over_nowrap (maxLen : Nat) (ch : List (List Char)) (cur line : List Char)
    (h1 : maxLen < cur.length + line.length + 1) (h2 : ¬(maxLen - 100 < line.length)) :
    splitStep maxLen ⟨ch, cur⟩ line
      = ⟨(flushChunk ⟨ch, cur⟩).chunks, (flushChunk ⟨ch, cur⟩).cur ++ line⟩ := by
  unfold splitStep
  rw [if_pos h1, if_neg h2]

theorem wrapStep_zero_nil (ch : List (List Char)) (w : List Char) :
    wrapStep ⟨ch, []⟩ 0 w = ⟨ch, w⟩ := by
  unfold wrapStep
  rw [if_pos ⟨rfl, rfl⟩]
  rfl

theorem wrapStep_ne_zero (ch : List (List Char)) (cur w : List Char) (j : Nat)
    (hj : j ≠ 0) :
    wrapStep ⟨ch, cur⟩ j w
      = ⟨(flushChunk ⟨ch, cur⟩).chunks, (flushChunk ⟨ch, cur⟩).cur ++ w⟩ := by
  unfold wrapStep
  rw [if_neg fun h => hj h.1]

theorem replicate_ne_nil_of_pos (n : Nat) (c : Char) (hn : n ≠ 0) :
    List.replicate n c ≠ [] := by
  intro h0
  have := congrArg List.length h0
  rw [List.length_replicate] at this
  simp at this
  exact hn this

theorem head?_rep_append (n : Nat) (c : Char) (rest : List Char) (hn : n ≠ 0) :
    (List.replicate n c ++ rest).head? = some c := by
  cases n with
  | zero => exact absurd rfl hn
  | succ m => rw [List.replicate_succ, List.cons_append, List.head?_cons]

theorem getLast?_append_cons_rep (front : List Char) (n : Nat) (c : Char) (hn : n ≠ 0) :
    (front ++ '\n' :: List.replicate n c).getLast? = some c := by
  cases n with
  | zero => exact absurd rfl hn
  | succ m =>
    rw [List.replicate_succ' m c,
      show front ++ '\n' :: (List.replicate m c ++ [c])
        = (front ++ '\n' :: List.replicate m c) ++ [c] by
        rw [List.append_assoc, List.cons_append],
      List.getLast?_concat]

theorem trimSpace_rep_cons_rep (na nb : Nat) (a b : Char) (hna : na ≠ 0) (hnb : nb ≠ 0)
    (ha : isSpaceChar a = false) (hb : isSpaceChar b = false) :
    trimSpace (List.replicate na a ++ '\n' :: List.replicate nb b)
      = List.replicate na a ++ '\n' :: List.replicate nb b := by
  refine trimSpace_eq_self _ (fun d hd => ?_) (fun d hd => ?_)
  · rw [head?_rep_append na a _ hna] at hd
    cases hd
    exact ha
  · rw [getLast?_append_cons_rep _ nb b hnb] at hd
    cases hd
    exact hb

theorem splitLines_c5 :
    splitLines c5Text = [List.replicate 4096 'a', List.replicate 3995 'b'] := by
  unfold c5Text splitLines
  rw [splitOnChar_append,
    splitOnChar_no_sep _ _ (fun h => absurd (List.eq_of_mem_replicate h) (by decide)),
    splitOnChar_no_sep _ _ (fun h => absurd (List.eq_of_mem_replicate h) (by decide))]
  rfl

theorem splitMessage_c5 :
    splitMessage 4096 c5Text
      = [List.replicate 3996 'a',
          List.replicate 100 'a' ++ '\n' :: List.replicate 3995 'b'] := by
  have hwrap : wrapLongLine (List.replicate 4096 'a') (4096 - 100)
      = [List.replicate 3996 'a', List.replicate 100 'a'] := by
    rw [wrapLongLine_replicate 'a' (by decide) 4096 (4096 - 100) (by norm_num)
      (by norm_num) (by norm_num)]
  have h1 : splitStep 4096 ⟨[], []⟩ (List.replicate 4096 'a')
      = ⟨[List.replicate 3996 'a'], List.replicate 100 'a'⟩ := by
    rw [splitStep_over_wrap 4096 [] [] (List.replicate 4096 'a')
        (by rw [List.length_replicate, List.length_nil]; omega)
        (by rw [List.length_replicate]; omega),
      flushChunk_nil, hwrap]
    simp only [wrapFoldAux, Nat.zero_add]
    rw [wrapStep_zero_nil,
      wrapStep_ne_zero [] (List.replicate 3996 'a') (List.replicate 100 'a') 1 one_ne_zero,
      flushChunk_of_ne_nil [] _ (replicate_ne_nil_of_pos 3996 'a' (by decide)),
      trimSpace_replicate 3996 'a' (by decide)]
    rfl
  have h2 : splitStep 4096 ⟨[List.replicate 3996 'a'], List.replicate 100 'a'⟩
      (List.replicate 3995 'b')
      = ⟨[List.replicate 3996 'a'],
          List.replicate 100 'a' ++ '\n' :: List.replicate 3995 'b'⟩ := by
    rw [splitStep_fits_pos 4096 [List.replicate 3996 'a'] (List.replicate 100 'a')
        (List.replicate 3995 'b')
        (by rw [List.length_replicate, List.length_replicate]; omega)
        (by rw [List.length_replicate]; omega)]
  have h3 : flushChunk ⟨[List.replicate 3996 'a'],
      List.replicate 100 'a' ++ '\n' :: List.replicate 3995 'b'⟩
      = ⟨[List.replicate 3996 'a',
          List.replicate 100 'a' ++ '\n' :: List.replicate 3995 'b'], []⟩ := by
    have hne : List.replicate 100 'a' ++ '\n' :: List.replicate 3995 'b' ≠ [] := by
      intro h0
      have := congrArg List.length h0
      rw [List.length_append, List.length_replicate, List.length_cons,
        List.length_replicate, List.length_nil] at this
      omega
    rw [flushChunk_of_ne_nil [List.replicate 3996 'a'] _ hne,
      trimSpace_rep_cons_rep 100 3995 'a' 'b' (by decide) (by decide) (by decide) (by decide)]
    rfl
  unfold splitMessage
  rw [splitLines_c5, List.foldl_cons, List.foldl_cons, List.foldl_nil, h1, h2, h3]

/-- C5 amended: every chunk the splitter produces respects the 4096 limit,
and a text within the limit is sent as the single message itself; the
injected part marker is added on top of the bound (see the counterexample).
-/
theorem splitMessage_chunk_le (text : List Char) :
    (∀ c ∈ splitMessage 4096 text, c.length ≤ 4096) ∧
    (text.length ≤ 4096 → sendLongChunks 4096 text = [text]) := by
  constructor
  · intro c hc
    unfold splitMessage at hc
    obtain ⟨hch, hcur⟩ := splitFold_le (splitLines text) ⟨[], []⟩ (by intro c hc; simp at hc)
      (by rw [show (⟨[], []⟩ : SplitState).cur = [] from rfl]; simp)
    rcases flushChunk_chunks _ c hc with h | rfl
    · exact hch c h
    · exact le_trans (trimSpace_length_le _) hcur
  · intro h
    unfold sendLongChunks
    rw [if_pos h]

/-- Witness for C5's amended theorem at a concrete short text. -/
theorem splitMessage_chunk_le_witness :
    "hi".data.length ≤ 4096 ∧ sendLongChunks 4096 "hi".data = ["hi".data] :=
  ⟨(splitMessage_chunk_le "hi".data).1 "hi".data (by decide),
   (splitMessage_chunk_le "hi".data).2 (by decide)⟩

/-! ### Round-trip of the splitter on clean lines (C6) -/

theorem splitLines_eq_single (l : List Char) (h : '\n' ∉ l) : splitLines l = [l] :=
  splitOnChar_no_sep '\n' l h

theorem splitLines_append (a b : List Char) :
    splitLines (a ++ '\n' :: b) = splitLines a ++ splitLines b :=
  splitOnChar_append '\n' a b

theorem head?_append_left (l r : List Char) (h : l ≠ []) :
    (l ++ r).head? = l.head? := by
  cases l with
  | nil => exact absurd rfl h
  | cons a t => rw [List.cons_append, List.head?_cons, List.head?_cons]

theorem getLast?_append_right (l r : List Char) (h : r ≠ []) :
    (l ++ r).getLast? = r.getLast? := by
  rw [List.getLast?_append]
  cases hr : r.getLast? with
  | none => exact absurd (List.getLast?_eq_none_iff.mp hr) h
  | some x => rfl

theorem getLast?_cons_of_ne_nil (a : Char) (l : List Char) (h : l ≠ []) :
    (a :: l).getLast? = l.getLast? := by
  cases l with
  | nil => exact absurd rfl h
  | cons b t => exact List.getLast?_cons_cons

theorem goodLine_unpack (l : List Char) (h : goodLine l = true) :
    l ≠ [] ∧ l.length ≤ 3996 ∧ (∀ c, l.head? = some c → isSpaceChar c = false) ∧
      (∀ c, l.getLast? = some c → isSpaceChar c = false) := by
  cases l with
  | nil => exact absurd h (by decide)
  | cons a t =>
    cases hg2 : (a :: t).getLast? with
    | none => exact absurd (List.getLast?_eq_none_iff.mp hg2) (by simp)
    | some d =>
      unfold goodLine at h
      rw [List.head?_cons, hg2] at h
      simp only [Bool.and_eq_true, Bool.not_eq_true', decide_eq_true_eq] at h
      refine ⟨by simp, h.1.1, fun c hc => ?_, fun c hc => ?_⟩
      · rw [List.head?_cons] at hc
        cases hc
        exact h.1.2
      · cases hc
        exact h.2

theorem isEmpty_false_of_ne_nil (l : List Char) (h : l ≠ []) : l.isEmpty = false := by
  cases l with
  | nil => exact absurd rfl h
  | cons a t => rfl

theorem curLines_of_ne_nil (ch : List (List Char)) (cur : List Char) (h : cur ≠ []) :
    curLines ⟨ch, cur⟩ = splitLines cur := by
  unfold curLines
  rw [show (⟨ch, cur⟩ : SplitState).cur = cur from rfl, isEmpty_false_of_ne_nil cur h]
  rfl

theorem curLines_nil (ch : List (List Char)) : curLines ⟨ch, []⟩ = [] := rfl

theorem chunkLines_mk (ch : List (List Char)) (cur : List Char) :
    chunkLines ⟨ch, cur⟩ = ch.flatMap splitLines ++ curLines ⟨ch, cur⟩ := rfl

theorem splitStep_lines (ch : List (List Char)) (cur line : List Char)
    (hg : goodLine line = true) (hnl : '\n' ∉ line)
    (hh : ∀ c, cur.head? = some c → isSpaceChar c = false)
    (hl : ∀ c, cur.getLast? = some c → isSpaceChar c = false) :
    chunkLines (splitStep 4096 ⟨ch, cur⟩ line) = chunkLines ⟨ch, cur⟩ ++ [line] ∧
    (∀ c, (splitStep 4096 ⟨ch, cur⟩ line).cur.head? = some c → isSpaceChar c = false) ∧
    (∀ c, (splitStep 4096 ⟨ch, cur⟩ line).cur.getLast? = some c → isSpaceChar c = false) := by
  obtain ⟨hne, hlen, hhead, hlast⟩ := goodLine_unpack line hg
  by_cases hover : 4096 < cur.length + line.length + 1
  · have hnw : ¬(4096 - 100 < line.length) := by omega
    have hcne : cur ≠ [] := by
      intro h0
      rw [h0, List.length_nil] at hover
      omega
    rw [splitStep_over_nowrap 4096 ch cur line hover hnw,
      flushChunk_of_ne_nil ch cur hcne, trimSpace_eq_self cur hh hl]
    refine ⟨?_, fun c hc => ?_, fun c hc => ?_⟩
    · rw [show (⟨(⟨ch ++ [cur], []⟩ : SplitState).chunks,
          (⟨ch ++ [cur], []⟩ : SplitState).cur ++ line⟩ : SplitState)
          = ⟨ch ++ [cur], line⟩ from rfl]
      rw [chunkLines_mk, chunkLines_mk, curLines_of_ne_nil _ _ hne,
        curLines_of_ne_nil _ _ hcne, List.flatMap_append,
        splitLines_eq_single line hnl]
      rw [show ([cur] : List (List Char)).flatMap splitLines = splitLines cur ++ [] from rfl,
        List.append_nil, List.append_assoc]
    · rw [show ((⟨(⟨ch ++ [cur], []⟩ : SplitState).chunks,
          (⟨ch ++ [cur], []⟩ : SplitState).cur ++ line⟩ : SplitState)).cur
          = line from rfl] at hc
      exact hhead c hc
    · rw [show ((⟨(⟨ch ++ [cur], []⟩ : SplitState).chunks,
          (⟨ch ++ [cur], []⟩ : SplitState).cur ++ line⟩ : SplitState)).cur
          = line from rfl] at hc
      exact hlast c hc
  · by_cases hpos : 0 < cur.length
    · have hcne : cur ≠ [] := by
        intro h0
        rw [h0, List.length_nil] at hpos
        omega
      rw [splitStep_fits_pos 4096 ch cur line hover hpos]
      have hcur' : cur ++ '\n' :: line ≠ [] := by
        intro h0
        have := congrArg List.length h0
        rw [List.length_append, List.length_cons, List.length_nil] at this
        omega
      refine ⟨?_, fun c hc => ?_, fun c hc => ?_⟩
      · rw [chunkLines_mk, chunkLines_mk, curLines_of_ne_nil _ _ hcur',
          curLines_of_ne_nil _ _ hcne, splitLines_append,
          splitLines_eq_single line hnl, List.append_assoc]
      · rw [show ((⟨ch, cur ++ '\n' :: line⟩ : SplitState)).cur
            = cur ++ '\n' :: line from rfl, head?_append_left _ _ hcne] at hc
        exact hh c hc
      · rw [show ((⟨ch, cur ++ '\n' :: line⟩ : SplitState)).cur
            = cur ++ '\n' :: line from rfl,
          getLast?_append_right _ _ (List.cons_ne_nil _ _),
          getLast?_cons_of_ne_nil _ _ hne] at hc
        exact hlast c hc
    · have hcnil : cur = [] := by
        cases cur with
        | nil => rfl
        | cons a t => exact absurd (by rw [List.length_cons]; omega) hpos
      subst hcnil
      rw [splitStep_fits_nil 4096 ch line hover]
      refine ⟨?_, fun c hc => ?_, fun c hc => ?_⟩
      · rw [chunkLines_mk, chunkLines_mk, curLines_nil, List.append_nil,
          curLines_of_ne_nil _ _ hne, splitLines_eq_single line hnl]
      · exact hhead c hc
      · exact hlast c hc

theorem splitFold_lines (ls : List (List Char)) :
    ∀ (ch : List (List Char)) (cur : List Char),
      (∀ l ∈ ls, goodLine l = true) → (∀ l ∈ ls, '\n' ∉ l) →
      (∀ c, cur.head? = some c → isSpaceChar c = false) →
      (∀ c, cur.getLast? = some c → isSpaceChar c = false) →
      chunkLines (ls.foldl (splitStep 4096) ⟨ch, cur⟩)
          = chunkLines ⟨ch, cur⟩ ++ ls ∧
        (∀ c, (ls.foldl (splitStep 4096) ⟨ch, cur⟩).cur.head? = some c →
          isSpaceChar c = false) ∧
        (∀ c, (ls.foldl (splitStep 4096) ⟨ch, cur⟩).cur.getLast? = some c →
          isSpaceChar c = false) := by
  induction ls with
  | nil =>
    intro ch cur _ _ hh hl
    exact ⟨by rw [List.foldl_nil, List.append_nil], hh, hl⟩
  | cons l ls ih =>
    intro ch cur hg hnl hh hl
    obtain ⟨h1, h2, h3⟩ := splitStep_lines ch cur l (hg l (List.mem_cons_self _ _))
      (hnl l (List.mem_cons_self _ _)) hh hl
    rw [List.foldl_cons]
    rcases hst : splitStep 4096 ⟨ch, cur⟩ l with ⟨ch2, cur2⟩
    rw [hst] at h1 h2 h3
    obtain ⟨g1, g2, g3⟩ := ih ch2 cur2 (fun x hx => hg x (List.mem_cons_of_mem _ hx))
      (fun x hx => hnl x (List.mem_cons_of_mem _ hx)) h2 h3
    refine ⟨?_, g2, g3⟩
    rw [g1, h1, List.append_assoc]
    rfl

/-- C6 amended: for an over-limit text whose every line is non-empty, short
enough never to be wrapped, and free of edge white space, the chunk sequence
reproduces the original line sequence exactly. -/
theorem splitMessage_roundtrip (text : List Char)
    (hgood : ∀ l ∈ splitLines text, goodLine l = true)
    (hbig : 4096 < text.length) :
    (splitMessage 4096 text).flatMap splitLines = splitLines text := by
  have hnl : ∀ l ∈ splitLines text, '\n' ∉ l :=
    fun l hl => mem_splitOnChar_not_sep '\n' text l hl
  obtain ⟨hA, hH, hL⟩ := splitFold_lines (splitLines text) [] [] hgood hnl
    (by intro c hc; simp at hc) (by intro c hc; simp at hc)
  unfold splitMessage
  rcases hfin : (splitLines text).foldl (splitStep 4096) ⟨[], []⟩ with ⟨fch, fcur⟩
  rw [hfin] at hA hH hL
  have hinit : chunkLines ⟨[], []⟩ = [] := rfl
  rw [hinit, List.nil_append] at hA
  by_cases hc : fcur = []
  · subst hc
    rw [flushChunk_nil]
    rw [chunkLines_mk, curLines_nil, List.append_nil] at hA
    exact hA
  · rw [flushChunk_of_ne_nil fch fcur hc, trimSpace_eq_self fcur hH hL]
    rw [chunkLines_mk, curLines_of_ne_nil _ _ hc] at hA
    rw [show (⟨fch ++ [fcur], []⟩ : SplitState).chunks = fch ++ [fcur] from rfl,
      List.flatMap_append,
      show ([fcur] : List (List Char)).flatMap splitLines = splitLines fcur ++ [] from rfl,
      List.append_nil]
    exact hA

theorem goodLine_replicate (n : Nat) (c : Char) (hn : n ≠ 0) (hlen : n ≤ 3996)
    (hc : isSpaceChar c = false) : goodLine (List.replicate n c) = true := by
  cases n with
  | zero => exact absurd rfl hn
  | succ m =>
    unfold goodLine
    rw [head?_replicate_succ, getLast?_replicate_succ]
    show (decide ((List.replicate (m + 1) c).length ≤ 3996)
      && !isSpaceChar c && !isSpaceChar c) = true
    rw [List.length_replicate, hc]
    simp only [Bool.not_false, Bool.and_true]
    exact decide_eq_true hlen

theorem splitLines_c6good :
    splitLines c6GoodText = [List.replicate 3000 'a', List.replicate 3000 'b'] := by
  unfold c6GoodText splitLines
  rw [splitOnChar_append,
    splitOnChar_no_sep _ _ (fun h => absurd (List.eq_of_mem_replicate h) (by decide)),
    splitOnChar_no_sep _ _ (fun h => absurd (List.eq_of_mem_replicate h) (by decide))]
  rfl

/-- Witness for C6's amended theorem at a concrete over-limit two-line text. -/
theorem splitMessage_roundtrip_witness :
    (splitMessage 4096 c6GoodText).flatMap splitLines = splitLines c6GoodText := by
  apply splitMessage_roundtrip
  · rw [splitLines_c6good]
    intro l hl
    rcases List.mem_cons.mp hl with rfl | hl
    · exact goodLine_replicate 3000 'a' (by decide) (by decide) (by decide)
    rcases List.mem_cons.mp hl with rfl | hl
    · exact goodLine_replicate 3000 'b' (by decide) (by decide) (by decide)
    simp at hl
  · unfold c6GoodText
    rw [List.length_append, List.length_replicate, List.length_cons,
      List.length_replicate]
    omega

/-! ### The C6 counterexample computation -/

theorem splitLines_c6 :
    splitLines c6Text = [List.replicate 4000 'a', List.replicate 4000 'b'] := by
  unfold c6Text splitLines
  rw [splitOnChar_append,
    splitOnChar_no_sep _ _ (fun h => absurd (List.eq_of_mem_replicate h) (by decide)),
    splitOnChar_no_sep _ _ (fun h => absurd (List.eq_of_mem_replicate h) (by decide))]
  rfl

theorem splitMessage_c6 :
    splitMessage 4096 c6Text
      = [List.replicate 4000 'a', List.replicate 3996 'b', List.replicate 4 'b'] := by
  have hwrap : wrapLongLine (List.replicate 4000 'b') (4096 - 100)
      = [List.replicate 3996 'b', List.replicate 4 'b'] := by
    rw [wrapLongLine_replicate 'b' (by decide) 4000 (4096 - 100) (by norm_num)
      (by norm_num) (by norm_num)]
  have h1 : splitStep 4096 ⟨[], []⟩ (List.replicate 4000 'a')
      = ⟨[], List.replicate 4000 'a'⟩ :=
    splitStep_fits_nil 4096 [] _
      (by rw [List.length_replicate, List.length_nil]; omega)
  have h2 : splitStep 4096 ⟨[], List.replicate 4000 'a'⟩ (List.replicate 4000 'b')
      = ⟨[List.replicate 4000 'a', List.replicate 3996 'b'], List.replicate 4 'b'⟩ := by
    rw [splitStep_over_wrap 4096 [] (List.replicate 4000 'a') (List.replicate 4000 'b')
        (by rw [List.length_replicate, List.length_replicate]; omega)
        (by rw [List.length_replicate]; omega),
      flushChunk_of_ne_nil [] _ (replicate_ne_nil_of_pos 4000 'a' (by decide)),
      trimSpace_replicate 4000 'a' (by decide), hwrap]
    simp only [wrapFoldAux, Nat.zero_add]
    rw [show ((⟨[] ++ [List.replicate 4000 'a'], []⟩ : SplitState))
        = ⟨[List.replicate 4000 'a'], []⟩ from rfl,
      wrapStep_zero_nil,
      wrapStep_ne_zero [List.replicate 4000 'a'] (List.replicate 3996 'b')
        (List.replicate 4 'b') 1 one_ne_zero,
      flushChunk_of_ne_nil _ _ (replicate_ne_nil_of_pos 3996 'b' (by decide)),
      trimSpace_replicate 3996 'b' (by decide)]
    rfl
  have h3 : flushChunk ⟨[List.replicate 4000 'a', List.replicate 3996 'b'],
      List.replicate 4 'b'⟩
      = ⟨[List.replicate 4000 'a', List.replicate 3996 'b', List.replicate 4 'b'],
          []⟩ := by
    rw [flushChunk_of_ne_nil _ _ (replicate_ne_nil_of_pos 4 'b' (by decide)),
      trimSpace_replicate 4 'b' (by decide)]
    rfl
  unfold splitMessage
  rw [splitLines_c6, List.foldl_cons, List.foldl_cons, List.foldl_nil, h1, h2, h3]

theorem isPrefixOf_cons_ne (a b : Char) (l r : List Char) (h : (a == b) = false) :
    (a :: l).isPrefixOf (b :: r) = false := by
  show ((a == b) && l.isPrefixOf r) = false
  rw [h, Bool.false_and]

theorem isPrefixOf_rep_false (a c : Char) (l : List Char) (n : Nat) (hn : n ≠ 0)
    (h : (a == c) = false) : (a :: l).isPrefixOf (List.replicate n c) = false := by
  cases n with
  | zero => exact absurd rfl hn
  | succ m =>
    rw [List.replicate_succ]
    exact isPrefixOf_cons_ne a c l _ h

theorem isPrefixOf_append_self (l r : List Char) : l.isPrefixOf (l ++ r) = true := by
  induction l with
  | nil =>
    cases r with
    | nil => rfl
    | cons b bs => rfl
  | cons a l ih =>
    rw [List.cons_append]
    show ((a == a) && l.isPrefixOf (l ++ r)) = true
    rw [ih, beq_self_eq_true, Bool.and_true]

theorem stripMarker_of_not (c : List Char)
    (h : "[Part ".data.isPrefixOf c = false) : stripMarker c = c := by
  unfold stripMarker
  rw [h, if_neg Bool.false_ne_true]

theorem dropWhile_append_of_ne_nil (p : Char → Bool) (l r : List Char)
    (h : l.dropWhile p ≠ []) : (l ++ r).dropWhile p = l.dropWhile p ++ r := by
  induction l with
  | nil => exact absurd rfl h
  | cons a l ih =>
    by_cases hp : p a = true
    · have e1 : (a :: (l ++ r)).dropWhile p = (l ++ r).dropWhile p := by
        rw [List.dropWhile_cons, if_pos hp]
      have e2 : (a :: l).dropWhile p = l.dropWhile p := by
        rw [List.dropWhile_cons, if_pos hp]
      rw [List.cons_append, e1, e2]
      exact ih (by rwa [e2] at h)
    · have e1 : (a :: (l ++ r)).dropWhile p = a :: (l ++ r) := by
        rw [List.dropWhile_cons, if_neg hp]
      have e2 : (a :: l).dropWhile p = a :: l := by
        rw [List.dropWhile_cons, if_neg hp]
      rw [List.cons_append, e1, e2, List.cons_append]

theorem marker_isPrefixOf (n : Nat) (c : List Char) :
    "[Part ".data.isPrefixOf (partMarker n ++ c) = true := by
  unfold partMarker
  rw [List.append_assoc, List.append_assoc]
  exact isPrefixOf_append_self _ _

theorem stripMarker_partMarker (n : Nat) (c : List Char)
    (h2 : (partMarker n).dropWhile (fun x => !(x = '\n')) = ['\n']) :
    stripMarker (partMarker n ++ c) = c := by
  unfold stripMarker
  rw [marker_isPrefixOf n c, if_pos rfl,
    dropWhile_append_of_ne_nil _ _ _ (by rw [h2]; exact List.cons_ne_nil _ _), h2]
  rfl

/-- C6 counterexample: on a concrete over-limit text the second line is
wrapped mid-line, so the concatenated chunk lines (markers stripped) differ
from the original two-line sequence. -/
theorem splitMessage_roundtrip_cex :
    4096 < c6Text.length ∧
    ((sendLongChunks 4096 c6Text).map stripMarker).flatMap splitLines
      ≠ splitLines c6Text := by
  have hlen : 4096 < c6Text.length := by
    unfold c6Text
    rw [List.length_append, List.length_replicate, List.length_cons,
      List.length_replicate]
    omega
  refine ⟨hlen, ?_⟩
  have hsend : sendLongChunks 4096 c6Text
      = [List.replicate 4000 'a', partMarker 2 ++ List.replicate 3996 'b',
          partMarker 3 ++ List.replicate 4 'b'] := by
    unfold sendLongChunks
    rw [if_neg (by intro hc; omega), splitMessage_c6]
    rfl
  have hpre40 : ("[Part ".data).isPrefixOf (List.replicate 4000 'a') = false := by
    rw [show ("[Part ".data : List Char) = '[' :: ['P', 'a', 'r', 't', ' '] from rfl]
    exact isPrefixOf_rep_false '[' 'a' _ 4000 (by decide) (by decide)
  have hstrip : ([List.replicate 4000 'a', partMarker 2 ++ List.replicate 3996 'b',
      partMarker 3 ++ List.replicate 4 'b'].map stripMarker)
      = [List.replicate 4000 'a', List.replicate 3996 'b', List.replicate 4 'b'] := by
    rw [List.map_cons, List.map_cons, List.map_cons, List.map_nil,
      stripMarker_of_not _ hpre40, stripMarker_partMarker 2 _ (by decide),
      stripMarker_partMarker 3 _ (by decide)]
  rw [hsend, hstrip, splitLines_c6]
  rw [List.flatMap_cons, List.flatMap_cons, List.flatMap_cons, List.flatMap_nil,
    splitLines_eq_single _ (fun h => absurd (List.eq_of_mem_replicate h) (by decide)),
    splitLines_eq_single _ (fun h => absurd (List.eq_of_mem_replicate h) (by decide)),
    splitLines_eq_single _ (fun h => absurd (List.eq_of_mem_replicate h) (by decide))]
  intro h
  have := congrArg List.length h
  rw [List.append_nil] at this
  simp only [List.length_append, List.length_cons, List.length_nil] at this
  omega


/-- C5 counterexample: on a concrete 8092-character text the second sent
chunk, marker included, has 4105 characters, exceeding the 4096 limit. -/
theorem sendLongChunks_limit_cex :
    partMarker 2 ++ (List.replicate 100 'a' ++ '\n' :: List.replicate 3995 'b')
        ∈ sendLongChunks 4096 c5Text ∧
    4096 < (partMarker 2
        ++ (List.replicate 100 'a' ++ '\n' :: List.replicate 3995 'b')).length := by
  have hbig : ¬c5Text.length ≤ 4096 := by
    unfold c5Text
    rw [List.length_append, List.length_replicate, List.length_cons,
      List.length_replicate]
    omega
  constructor
  · unfold sendLongChunks
    rw [if_neg hbig, splitMessage_c5]
    have he : ([List.replicate 3996 'a',
        List.replicate 100 'a' ++ '\n' :: List.replicate 3995 'b'] : List (List Char)).enum.map
          (fun p => if p.1 = 0 then p.2 else partMarker (p.1 + 1) ++ p.2)
        = [List.replicate 3996 'a',
            partMarker 2 ++ (List.replicate 100 'a' ++ '\n' :: List.replicate 3995 'b')] := rfl
    rw [he]
    exact List.mem_cons_of_mem _ (List.mem_cons_self _ _)
  · rw [List.length_append, List.length_append, List.length_cons,
      List.length_replicate, List.length_replicate]
    have hm : (partMarker 2).length = 9 := by decide
    omega

/-- C1: with no configured rules the admission check always returns true;
with rules it returns true exactly when the peer's host parses as an IP lying
in at least one configured range, and an unparseable host is rejected (fail
closed). -/
theorem isIPAllowed_spec {IP Net : Type}
    (shp : List Char → Option (List Char × List Char))
    (parseIP : List Char → Option IP) (contains : Net → IP → Bool)
    (nets : List Net) (addr : List Char) :
    (nets = [] → isIPAllowed shp parseIP contains nets addr = true) ∧
    (nets ≠ [] → parseIP (hostOf shp addr) = none →
      isIPAllowed shp parseIP contains nets addr = false) ∧
    (nets ≠ [] → (isIPAllowed shp parseIP contains nets addr = true ↔
      ∃ ip, parseIP (hostOf shp addr) = some ip ∧ ∃ n ∈ nets, contains n ip = true)) := by
  have hne : nets ≠ [] → nets.isEmpty = false := by
    intro h
    cases nets with
    | nil => exact absurd rfl h
    | cons a l => rfl
  refine ⟨fun h => by simp [isIPAllowed, h], fun h hp => ?_, fun h => ?_⟩
  · simp [isIPAllowed, hne h, hp]
  · cases hip : parseIP (hostOf shp addr) with
    | none => simp [isIPAllowed, hne h, hip]
    | some ip => simp [isIPAllowed, hne h, hip, List.any_eq_true]

/-- Witness for C1 at a concrete instantiation. -/
theorem isIPAllowed_spec_witness :
    isIPAllowed (fun _ => none) (fun _ => some (0 : Nat)) (fun (n ip : Nat) => n == ip)
      [0] "10.0.0.1".data = true := by
  exact ((isIPAllowed_spec (fun _ => none) (fun _ => some (0 : Nat))
    (fun (n ip : Nat) => n == ip) [0] "10.0.0.1".data).2.2 (by simp)).mpr
    ⟨0, rfl, 0, by simp, by decide⟩

/-- C2: a first recipient that parses and splits into local/domain parts with
an unrecognized (case-insensitively compared) domain yields exactly the
unsupported-platform error, independently of the local part, so identifier
validation is never reached. -/
theorem extractPlatformAndID_unsupported
    (parseAddress : List Char → Option (List Char))
    (first : List Char) (rest : List (List Char)) (address lp dp : List Char)
    (hp : parseAddress first = some address)
    (hs : splitOnChar '@' address = [lp, dp])
    (ht : toLowerList dp ≠ "telegram".data) (hsl : toLowerList dp ≠ "slack".data) :
    extractPlatformAndID parseAddress (first :: rest)
      = .error (.unsupportedPlatform (toLowerList dp)) := by
  simp [extractPlatformAndID, hp, hs, ht, hsl]

/-- Witness for C2 at a concrete address. -/
theorem extractPlatformAndID_unsupported_witness :
    extractPlatformAndID some ["x@nowhere".data]
      = .error (.unsupportedPlatform (toLowerList "nowhere".data)) :=
  extractPlatformAndID_unsupported some "x@nowhere".data [] "x@nowhere".data
    "x".data "nowhere".data rfl (by decide) (by decide) (by decide)

/-- C3: Telegram validation accepts every string parsing as a nonzero signed
64-bit integer, rejects every string parsing to zero, accepts `g` followed by
digits that form a 64-bit value, and behaves as specified on the concrete
inputs, with `g123456` finalized to `-123456` at dispatch time. -/
theorem validateTelegramID_spec :
    (∀ s v, parseInt64 s = some v → v ≠ 0 → validateTelegramID s = true) ∧
    (∀ s, parseInt64 s = some 0 → validateTelegramID s = false) ∧
    (∀ ds v, ds.all Char.isDigit = true → parseInt64 ds = some v →
      validateTelegramID ('g' :: ds) = true) ∧
    validateTelegramID "123456789".data = true ∧
    validateTelegramID "-1001234567".data = true ∧
    validateTelegramID "0".data = false ∧
    validateTelegramID "g123456".data = true ∧
    finalizeTelegramID "g123456".data = "-123456".data := by
  have hg : ∀ t : List Char, parseInt64 ('g' :: t) = none := by
    intro t
    simp [parseInt64, parseDigits]
  have hpre : ∀ s : List Char, "g".data.isPrefixOf s = true ∧ 1 < s.length →
      ∃ t, s = 'g' :: t := by
    intro s hs
    match s, hs with
    | c :: t, ⟨h1, _⟩ =>
      have hc : 'g' = c := by simpa [List.isPrefixOf, beq_iff_eq] using h1
      subst hc
      exact ⟨t, rfl⟩
  refine ⟨?_, ?_, ?_, by decide, by decide, by decide, by decide, by decide⟩
  · intro s v hp hv
    unfold validateTelegramID
    split
    · rename_i h
      obtain ⟨t, rfl⟩ := hpre s (by simpa using h)
      rw [hg t] at hp
      exact absurd hp (by simp)
    · rw [hp]
      simp [hv]
  · intro s hp
    unfold validateTelegramID
    split
    · rename_i h
      obtain ⟨t, rfl⟩ := hpre s (by simpa using h)
      rw [hg t] at hp
      exact absurd hp (by simp)
    · rw [hp]
      simp
  · intro ds v _ hp
    have hne : ds ≠ [] := by
      rintro rfl
      simp [parseInt64] at hp
    unfold validateTelegramID
    rw [if_pos]
    · simp [hp]
    · refine ⟨by simp [List.isPrefixOf], ?_⟩
      cases ds with
      | nil => exact absurd rfl hne
      | cons c t => simp

/-- Witness for C3's quantified clause at a concrete input. -/
theorem validateTelegramID_spec_witness : validateTelegramID "77".data = true :=
  validateTelegramID_spec.1 "77".data 77 (by decide) (by decide)

/-- C4: resolution uses only the first recipient; any two non-empty recipient
lists with the same head resolve identically. -/
theorem extractPlatformAndID_first_only
    (parseAddress : List Char → Option (List Char))
    (a : List Char) (rest₁ rest₂ : List (List Char)) :
    extractPlatformAndID parseAddress (a :: rest₁)
      = extractPlatformAndID parseAddress (a :: rest₂) := rfl

/-- C7: the chunk-send loop attempts chunks strictly in index order; with no
failing send every chunk is attempted, and if the first failing chunk has
index `k` then exactly the chunks up to and including `k` are attempted and
the loop aborts reporting `k`. -/
theorem sendLoop_spec (fails : Nat → Bool) (chunks : List (List Char)) :
    ((∀ j, j < chunks.length → fails j = false) →
      sendLoop fails 0 chunks = (List.range chunks.length, none)) ∧
    (∀ k, k < chunks.length → fails k = true → (∀ j, j < k → fails j = false) →
      sendLoop fails 0 chunks = (List.range (k + 1), some k)) := by
  have hsucc : ∀ (cs : List (List Char)) (s : Nat),
      (∀ j, j < cs.length → fails (s + j) = false) →
      sendLoop fails s cs = (List.range' s cs.length, none) := by
    intro cs
    induction cs with
    | nil => intro s _; simp [sendLoop]
    | cons c cs ih =>
      intro s h
      have h0 : fails s = false := by simpa using h 0 (by simp)
      have h' : ∀ j, j < cs.length → fails (s + 1 + j) = false := by
        intro j hj
        have := h (j + 1) (by simpa using Nat.succ_lt_succ hj)
        simpa [Nat.add_assoc, Nat.add_comm 1 j] using this
      simp only [sendLoop, h0, Bool.false_eq_true, if_false, ih (s + 1) h']
      simp [List.range'_succ]
  have hfail : ∀ (cs : List (List Char)) (s k : Nat), k < cs.length →
      fails (s + k) = true → (∀ j, j < k → fails (s + j) = false) →
      sendLoop fails s cs = (List.range' s (k + 1), some (s + k)) := by
    intro cs
    induction cs with
    | nil => intro s k hk; simp at hk
    | cons c cs ih =>
      intro s k hk hf hmin
      cases k with
      | zero =>
        have h0 : fails s = true := by simpa using hf
        simp [sendLoop, h0, List.range'_succ]
      | succ k =>
        have h0 : fails s = false := by simpa using hmin 0 (Nat.succ_pos k)
        have hf' : fails (s + 1 + k) = true := by
          simpa [Nat.add_assoc, Nat.add_comm 1 k] using hf
        have hmin' : ∀ j, j < k → fails (s + 1 + j) = false := by
          intro j hj
          have := hmin (j + 1) (Nat.succ_lt_succ hj)
          simpa [Nat.add_assoc, Nat.add_comm 1 j] using this
        have hk' : k < cs.length := Nat.lt_of_succ_lt_succ hk
        simp only [sendLoop, h0, Bool.false_eq_true, if_false, ih (s + 1) k hk' hf' hmin']
        rw [List.range'_succ]
        refine congrArg₂ Prod.mk rfl (congrArg some (by omega))
  constructor
  · intro h
    have := hsucc chunks 0 (by simpa using h)
    simpa [← List.range_eq_range'] using this
  · intro k hk hf hmin
    have := hfail chunks 0 k hk (by simpa using hf) (by simpa using hmin)
    simpa [← List.range_eq_range'] using this

/-- Witness for C7 at a concrete chunk list with the send of index 1
failing. -/
theorem sendLoop_spec_witness :
    sendLoop (fun i => i == 1) 0 ["a".data, "b".data, "c".data] = ([0, 1], some 1) := by
  have h := (sendLoop_spec (fun i => i == 1) ["a".data, "b".data, "c".data]).2
    1 (by decide) (by decide) (by decide)
  simpa [List.range_succ] using h

/-- C8: once a username resolves (populating the cache on a miss), resolving
it again against the resulting cache returns the same canonical ID, leaves
the cache unchanged, and performs no remote lookup. -/
theorem resolveUserID_idempotent (remote : List Char → Option (List Char))
    (cache : List (List Char × List Char)) (u id : List Char)
    (h : (resolveUserID remote cache u).1 = some id) :
    resolveUserID remote (resolveUserID remote cache u).2.1 u
      = (some id, (resolveUserID remote cache u).2.1, false) := by
  unfold resolveUserID at h ⊢
  revert h
  cases hc : cache.lookup u with
  | some i =>
    intro h
    have hid : i = id := by simpa using h
    subst hid
    simp [hc]
  | none =>
    intro h
    revert h
    cases hr : remote u with
    | none =>
      intro h
      simp at h
    | some i =>
      intro h
      have hid : i = id := by simpa using h
      subst hid
      simp [List.lookup]

/-- Witness for C8 at a concrete cache-miss-then-hit scenario. -/
theorem resolveUserID_idempotent_witness :
    resolveUserID (fun _ => some "U999".data)
        ((resolveUserID (fun _ => some "U999".data) [] "bob".data).2.1) "bob".data
      = (some "U999".data,
          (resolveUserID (fun _ => some "U999".data) [] "bob".data).2.1, false) :=
  resolveUserID_idempotent (fun _ => some "U999".data) [] "bob".data "U999".data (by decide)

/-- C9 counterexample: the empty Date string fails to parse, yet the code
returns `"Unknown"` instead of preserving the raw (empty) string. -/
theorem formatDate_empty_cex :
    (fun _ : List Char => (none : Option Unit)) [] = none ∧
    formatDate (fun _ : List Char => (none : Option Unit)) (fun _ => []) []
      = "Unknown".data ∧
    "Unknown".data ≠ ([] : List Char) :=
  ⟨rfl, rfl, by decide⟩

/-- C9 amended: every non-empty Date string that fails to parse is preserved
verbatim, every non-empty one that parses goes through the fixed UTC
formatter, and the empty string yields `"Unknown"`. -/
theorem formatDate_spec {Time : Type} (parseDate : List Char → Option Time)
    (formatUTC : Time → List Char) :
    (∀ d, d ≠ [] → parseDate d = none → formatDate parseDate formatUTC d = d) ∧
    (∀ d t, d ≠ [] → parseDate d = some t →
      formatDate parseDate formatUTC d = formatUTC t) ∧
    formatDate parseDate formatUTC [] = "Unknown".data := by
  refine ⟨fun d hd hp => ?_, fun d t hd hp => ?_, rfl⟩
  · simp [formatDate, List.isEmpty_eq_true, hd, hp]
  · simp [formatDate, List.isEmpty_eq_true, hd, hp]

/-- Witness for C9's amended clauses at concrete inputs. -/
theorem formatDate_spec_witness :
    formatDate (fun _ : List Char => (none : Option Unit)) (fun _ => []) "x".data
      = "x".data :=
  (formatDate_spec (fun _ : List Char => (none : Option Unit)) (fun _ => [])).1
    "x".data (by decide) rfl

/-- C10: a short `U`-prefixed local part with no `@` or `#` passes Slack
validation (as a username), yet dispatch never attempts username resolution
for it and forwards it unchanged. -/
theorem slack_short_uid_spec (id : List Char) (h0 : id ≠ [])
    (hAt : id.contains '@' = false) (hHash : id.contains '#' = false)
    (hU : "U".data.isPrefixOf id = true) (hlen : id.length < 9) :
    validateSlackID id = true ∧
    ∀ resolve, finalizeSlackID resolve id = some (id, false) := by
  obtain ⟨t, rfl⟩ : ∃ t, id = 'U' :: t := by
    match id, h0, hU with
    | c :: t, _, hU =>
      have hc : 'U' = c := by simpa [List.isPrefixOf, beq_iff_eq] using hU
      subst hc
      exact ⟨t, rfl⟩
  constructor
  · unfold validateSlackID
    rw [if_neg (by omega), if_neg, if_neg, if_pos]
    · exact ⟨by simp, hHash, hAt⟩
    · rintro ⟨hpre, -⟩
      simp [List.isPrefixOf] at hpre
    · rintro ⟨hpre, -⟩
      simp [List.isPrefixOf] at hpre
  · intro resolve
    unfold finalizeSlackID
    rw [if_neg]
    rintro ⟨hpre, -⟩
    rw [hU] at hpre
    exact absurd hpre (by simp)

/-- Witness for C10 at the concrete identifier `U1234`. -/
theorem slack_short_uid_spec_witness :
    validateSlackID "U1234".data = true ∧
    finalizeSlackID (fun _ => none) "U1234".data = some ("U1234".data, false) := by
  have h := slack_short_uid_spec "U1234".data (by decide) (by decide) (by decide)
    (by decide) (by decide)
  exact ⟨h.1, h.2 _⟩

end Email2dm
